import Mathlib

/-!
Verification development for the pyMeasureMap repository.

The definitions below are a shallow embedding of the repository's source
files (`src/pymeasuremap/extract.py`, `src/pymeasuremap/convert.py`,
`src/pymeasuremap/utils.py`).  Machine integers are modelled as `Nat`/`Int`,
Python `Fraction`/float values as `ℚ`, fallible code as `Except`/`Option`.
The module `pymeasuremap/base.py` (the `Measure` entity, `MeasureMap`
container, codec and default-successor engine) is not part of the provided
sources; the definitions for it are modelled from the specification and are
marked as such in their doc comments.
-/

/-- Kind of a left barline of a measure, as distinguished by
`m21_part_to_measure_map`: a repeat-start barline
(`str(lb) == str(bar.Repeat(direction="start"))`), a barline whose
`.type == "regular"`, or any other barline. -/
inductive LBKind where
  | repeatStart
  | regular
  | other
deriving DecidableEq, Repr

/-- Kind of a right barline: a repeat-end barline
(`str(rb) == str(bar.Repeat(direction="end"))`) or any other barline. -/
inductive RBKind where
  | repeatEnd
  | other
deriving DecidableEq, Repr

/-- The per-measure attributes that `m21_part_to_measure_map` reads from a
`music21.stream.Measure`: the optional time signature (its `ratioString`),
the optional left and right barlines, `offset`, `measureNumber`,
`barDuration.quarterLength` and `duration.quarterLength`. -/
structure RawMeasure where
  timeSig : Option String
  left : Option LBKind
  right : Option RBKind
  offset : ℚ
  number : ℤ
  barDuration : ℚ
  duration : ℚ
deriving DecidableEq, Repr

/-- The dictionary built for one measure by `m21_part_to_measure_map`
(extract.py, lines 69-81). -/
structure MDict where
  count : ℕ
  qstamp : ℚ
  number : ℤ
  time_signature : String
  nominal_length : ℚ
  actual_length : ℚ
  start_repeat : Bool
  end_repeat : Bool
  next : List ℕ
deriving DecidableEq, Repr

/-- Errors the extraction code can raise: `IndexError` from a list index
out of range, and `AttributeError` from `None.ratioString` when the first
measure carries no time signature. -/
inductive BErr where
  | indexError
  | attributeError
deriving DecidableEq, Repr

/-- Default dictionary used only to totalise list lookups whose indices are
proved in range. -/
def mdictDefault : MDict :=
  ⟨0, 0, 0, "", 0, 0, false, false, []⟩

/-- Python list indexing: a non-negative index must be below the length, a
negative index `i` addresses element `len + i`; anything else raises
`IndexError`. -/
def pyIdx (len : ℕ) (i : ℤ) : Option ℕ :=
  if 0 ≤ i ∧ i < (len : ℤ) then some i.toNat
  else if -(len : ℤ) ≤ i ∧ i < 0 then some ((len : ℤ) + i).toNat
  else none

/-- Python `l[i]` on a list of measure dictionaries. -/
def pyGet (l : List MDict) (i : ℤ) : Except BErr MDict :=
  match pyIdx l.length i with
  | some j => .ok (l.getD j mdictDefault)
  | none => .error .indexError

/-- Python `l[i]["next"].append(v)` on a list of measure dictionaries. -/
def pyAppendNext (l : List MDict) (i : ℤ) (v : ℕ) : Except BErr (List MDict) :=
  match pyIdx l.length i with
  | some j =>
      .ok (l.set j (let d := l.getD j mdictDefault; { d with next := d.next ++ [v] }))
  | none => .error .indexError

/-- The loop state of `m21_part_to_measure_map`: the list built so far
(`sheet_measure_map`), `go_back_to`, `go_forward_from`, `count` and the
running `time_sig`. -/
structure BState where
  sheet : List MDict
  go_back_to : ℕ
  go_forward_from : ℕ
  count : ℕ
  time_sig : String
deriving DecidableEq, Repr

/-- The barline bookkeeping of one loop iteration (extract.py, lines 50-61):
on `start_repeat`, `go_back_to` becomes the current `count`; otherwise a left
barline of type `regular` either links the measure at `go_forward_from`
forward to the current measure (when the previous measure closed a repeat)
or moves `go_forward_from` to `count - 1`.  Returns the possibly modified
sheet together with the new `go_back_to` and `go_forward_from`. -/
def leftBarlineStep (st : BState) (m : RawMeasure) : Except BErr (List MDict × ℕ × ℕ) :=
  if m.left = some LBKind.repeatStart then .ok (st.sheet, st.count, st.go_forward_from)
  else
    match m.left with
    | some lb =>
        if lb = LBKind.regular then
          match pyGet st.sheet ((st.count : ℤ) - 2) with
          | .error e => .error e
          | .ok prev =>
              if prev.end_repeat then
                match pyAppendNext st.sheet ((st.go_forward_from : ℤ) - 1) st.count with
                | .error e => .error e
                | .ok sheet' => .ok (sheet', st.go_back_to, st.go_forward_from)
              else .ok (st.sheet, st.go_back_to, st.count - 1)
        else .ok (st.sheet, st.go_back_to, st.go_forward_from)
    | none => .ok (st.sheet, st.go_back_to, st.go_forward_from)

/-- The `next` list built for the current measure (extract.py, lines 62-67):
the repeat jump to `go_back_to` when the measure closes a repeat, then the
linear fallthrough `count + 1` when a following measure exists, unless the
measure closes a repeat and `count > go_forward_from != 1`. -/
def computeNext (n count gbt gff : ℕ) (end_repeat : Bool) : List ℕ :=
  (if end_repeat then [gbt] else []) ++
    (if count + 1 ≤ n ∧ ¬(end_repeat = true ∧ gff < count ∧ gff ≠ 1)
      then [count + 1] else [])

/-- One iteration of the measure loop of `m21_part_to_measure_map`
(extract.py, lines 35-84), for a part with `n` measures in total. -/
def step (n : ℕ) (st : BState) (m : RawMeasure) : Except BErr BState :=
  let time_sig := m.timeSig.getD st.time_sig
  let start_repeat : Bool := decide (m.left = some LBKind.repeatStart)
  let end_repeat : Bool := decide (m.right = some RBKind.repeatEnd)
  match leftBarlineStep st m with
  | .error e => .error e
  | .ok (sheet1, gbt1, gff1) =>
      let d : MDict :=
        ⟨st.count, m.offset, m.number, time_sig, m.barDuration, m.duration,
          start_repeat, end_repeat, computeNext n st.count gbt1 gff1 end_repeat⟩
      .ok ⟨sheet1 ++ [d], gbt1, gff1, st.count + 1, time_sig⟩

/-- The measure loop of `m21_part_to_measure_map`, left to right. -/
def runBuilder (n : ℕ) (st : BState) : List RawMeasure → Except BErr BState
  | [] => .ok st
  | m :: rest =>
      match step n st m with
      | .error e => .error e
      | .ok st' => runBuilder n st' rest

/-- Embedding of `m21_part_to_measure_map` (extract.py, lines 14-86): reads
the first measure's time signature (raising on an empty part or a missing
first time signature), then runs the stateful left-to-right pass with
`go_back_to = go_forward_from = count = 1`. -/
def m21_part_to_measure_map (ms : List RawMeasure) : Except BErr (List MDict) :=
  match ms with
  | [] => .error .indexError
  | m0 :: _ =>
      match m0.timeSig with
      | none => .error .attributeError
      | some ts =>
          match runBuilder ms.length ⟨[], 1, 1, 1, ts⟩ ms with
          | .error e => .error e
          | .ok st => .ok st.sheet

/-- A concrete raw measure with fixed numeric attributes, used for witnesses
and counterexamples. -/
def rawMeasure (ts : Option String) (l : Option LBKind) (r : Option RBKind) : RawMeasure :=
  ⟨ts, l, r, 0, 1, 4, 4⟩

theorem leftBarlineStep_none (st : BState) (m : RawMeasure) (hl : m.left = none) :
    leftBarlineStep st m = .ok (st.sheet, st.go_back_to, st.go_forward_from) := by
  simp [leftBarlineStep, hl]

theorem leftBarlineStep_repeatStart (st : BState) (m : RawMeasure)
    (hl : m.left = some LBKind.repeatStart) :
    leftBarlineStep st m = .ok (st.sheet, st.count, st.go_forward_from) := by
  simp [leftBarlineStep, hl]

theorem leftBarlineStep_otherBar (st : BState) (m : RawMeasure)
    (hl : m.left = some LBKind.other) :
    leftBarlineStep st m = .ok (st.sheet, st.go_back_to, st.go_forward_from) := by
  simp [leftBarlineStep, hl]

theorem leftBarlineStep_ok_shape (st : BState) (m : RawMeasure)
    (sheet1 : List MDict) (gbt1 gff1 : ℕ)
    (h : leftBarlineStep st m = .ok (sheet1, gbt1, gff1)) :
    (gbt1 = st.go_back_to ∨ gbt1 = st.count) ∧
      (gff1 = st.go_forward_from ∨ gff1 = st.count - 1) ∧
      sheet1.length = st.sheet.length := by
  unfold leftBarlineStep at h
  split at h
  · simp only [Except.ok.injEq, Prod.mk.injEq] at h
    exact ⟨Or.inr h.2.1.symm, Or.inl h.2.2.symm, by rw [← h.1]⟩
  · split at h
    · split at h
      · split at h
        · cases h
        · split at h
          · split at h
            · cases h
            · rename_i sheet' happ
              simp only [Except.ok.injEq, Prod.mk.injEq] at h
              refine ⟨Or.inl h.2.1.symm, Or.inl h.2.2.symm, ?_⟩
              rw [← h.1]
              unfold pyAppendNext at happ
              split at happ
              · simp only [Except.ok.injEq] at happ
                rw [← happ, List.length_set]
              · cases happ
          · simp only [Except.ok.injEq, Prod.mk.injEq] at h
            exact ⟨Or.inl h.2.1.symm, Or.inr h.2.2.symm, by rw [← h.1]⟩
      · simp only [Except.ok.injEq, Prod.mk.injEq] at h
        exact ⟨Or.inl h.2.1.symm, Or.inl h.2.2.symm, by rw [← h.1]⟩
    · simp only [Except.ok.injEq, Prod.mk.injEq] at h
      exact ⟨Or.inl h.2.1.symm, Or.inl h.2.2.symm, by rw [← h.1]⟩

theorem step_eq (n : ℕ) (st : BState) (m : RawMeasure)
    (sheet1 : List MDict) (gbt1 gff1 : ℕ)
    (h : leftBarlineStep st m = .ok (sheet1, gbt1, gff1)) :
    step n st m = .ok ⟨sheet1 ++
      [⟨st.count, m.offset, m.number, m.timeSig.getD st.time_sig, m.barDuration, m.duration,
        decide (m.left = some LBKind.repeatStart), decide (m.right = some RBKind.repeatEnd),
        computeNext n st.count gbt1 gff1 (decide (m.right = some RBKind.repeatEnd))⟩],
      gbt1, gff1, st.count + 1, m.timeSig.getD st.time_sig⟩ := by
  simp [step, h]

theorem succ_mem_computeNext (n count gbt gff : ℕ) (er : Bool) (hgbt : gbt ≤ count) :
    count + 1 ∈ computeNext n count gbt gff er ↔
      (count + 1 ≤ n ∧ ¬(er = true ∧ gff < count ∧ gff ≠ 1)) := by
  unfold computeNext
  cases er
  · by_cases hn : count + 1 ≤ n <;> simp [hn]
  · by_cases h : gff < count ∧ gff ≠ 1
    · by_cases hn : count + 1 ≤ n <;> simp [hn, h] <;> omega
    · by_cases hn : count + 1 ≤ n <;> simp [hn, h] <;> omega

theorem computeNext_nodup (n count gbt gff : ℕ) (er : Bool) (hgbt : gbt ≤ count) :
    (computeNext n count gbt gff er).Nodup := by
  unfold computeNext
  cases er
  · by_cases hn : count + 1 ≤ n <;> simp [hn]
  · by_cases h : gff < count ∧ gff ≠ 1
    · by_cases hn : count + 1 ≤ n <;> simp [hn, h] <;> omega
    · by_cases hn : count + 1 ≤ n <;> simp [hn, h] <;> omega

theorem runBuilder_cons (n : ℕ) (st st' : BState) (m : RawMeasure) (rest : List RawMeasure)
    (h : step n st m = .ok st') :
    runBuilder n st (m :: rest) = runBuilder n st' rest := by
  simp [runBuilder, h]

/-- C3: for a measure processed by the builder that is followed by another
measure (`count + 1 ≤ n`), the dictionary appended for it contains the
linear fallthrough `count + 1` in its `next` list exactly unless the measure
closes a repeat and `count > go_forward_from != 1`, where `go_forward_from`
is the alternate-ending state carried at the moment of the check.  The
hypothesis `go_back_to ≤ count` is an invariant of every reachable builder
state. -/
theorem fallthrough_edge_iff (n : ℕ) (st st' : BState) (m : RawMeasure)
    (hgbt : st.go_back_to ≤ st.count)
    (hstep : step n st m = .ok st')
    (hfollow : st.count + 1 ≤ n) :
    ∃ front d, st'.sheet = front ++ [d] ∧ d.count = st.count ∧
      d.end_repeat = decide (m.right = some RBKind.repeatEnd) ∧
      (st.count + 1 ∈ d.next ↔
        ¬(d.end_repeat = true ∧ st'.go_forward_from < st.count ∧ st'.go_forward_from ≠ 1)) := by
  cases hlb : leftBarlineStep st m with
  | error e =>
      rw [step, hlb] at hstep
      cases hstep
  | ok triple =>
      obtain ⟨sheet1, gbt1, gff1⟩ := triple
      rw [step_eq n st m sheet1 gbt1 gff1 hlb] at hstep
      have hst' := (Except.ok.injEq _ _).mp hstep
      subst hst'
      have hshape := leftBarlineStep_ok_shape st m sheet1 gbt1 gff1 hlb
      have hgbt1 : gbt1 ≤ st.count := by
        rcases hshape.1 with h | h <;> omega
      refine ⟨sheet1, _, rfl, rfl, rfl, ?_⟩
      rw [succ_mem_computeNext n st.count gbt1 gff1 _ hgbt1]
      simp [hfollow]

/-- Concrete instantiation of `fallthrough_edge_iff` at a plain measure. -/
theorem fallthrough_edge_iff_witness :
    ∃ front d,
      (⟨[⟨1, 0, 1, "4/4", 4, 4, false, false, [2]⟩], 1, 1, 2, "4/4"⟩ : BState).sheet
          = front ++ [d] ∧
        d.count = 1 ∧
        d.end_repeat = decide ((rawMeasure (some "4/4") none none).right = some RBKind.repeatEnd) ∧
        (1 + 1 ∈ d.next ↔
          ¬(d.end_repeat = true ∧
            (⟨[⟨1, 0, 1, "4/4", 4, 4, false, false, [2]⟩], 1, 1, 2, "4/4"⟩ : BState).go_forward_from < 1 ∧
            (⟨[⟨1, 0, 1, "4/4", 4, 4, false, false, [2]⟩], 1, 1, 2, "4/4"⟩ : BState).go_forward_from ≠ 1)) :=
  fallthrough_edge_iff 2 ⟨[], 1, 1, 1, "4/4"⟩ _
    (rawMeasure (some "4/4") none none) (by decide) (by rfl) (by decide)

theorem step_plain_simple (n : ℕ) (st : BState) (m : RawMeasure)
    (hl : m.left = none) (hr : m.right ≠ some RBKind.repeatEnd) (hn : st.count + 1 ≤ n) :
    step n st m = .ok ⟨st.sheet ++
      [⟨st.count, m.offset, m.number, m.timeSig.getD st.time_sig, m.barDuration, m.duration,
        false, false, [st.count + 1]⟩],
      st.go_back_to, st.go_forward_from, st.count + 1, m.timeSig.getD st.time_sig⟩ := by
  rw [step_eq n st m _ _ _ (leftBarlineStep_none st m hl)]
  have e : decide (m.right = some RBKind.repeatEnd) = false := decide_eq_false hr
  simp [hl, e, computeNext, hn]

theorem step_start_simple (n : ℕ) (st : BState) (m : RawMeasure)
    (hl : m.left = some LBKind.repeatStart) (hr : m.right ≠ some RBKind.repeatEnd)
    (hn : st.count + 1 ≤ n) :
    step n st m = .ok ⟨st.sheet ++
      [⟨st.count, m.offset, m.number, m.timeSig.getD st.time_sig, m.barDuration, m.duration,
        true, false, [st.count + 1]⟩],
      st.count, st.go_forward_from, st.count + 1, m.timeSig.getD st.time_sig⟩ := by
  rw [step_eq n st m _ _ _ (leftBarlineStep_repeatStart st m hl)]
  have e : decide (m.right = some RBKind.repeatEnd) = false := decide_eq_false hr
  simp [hl, e, computeNext, hn]

theorem step_endrep_gff1 (n : ℕ) (st : BState) (m : RawMeasure)
    (hl : m.left = none) (hr : m.right = some RBKind.repeatEnd)
    (hgff : st.go_forward_from = 1) (hn : st.count + 1 ≤ n) :
    step n st m = .ok ⟨st.sheet ++
      [⟨st.count, m.offset, m.number, m.timeSig.getD st.time_sig, m.barDuration, m.duration,
        false, true, [st.go_back_to, st.count + 1]⟩],
      st.go_back_to, st.go_forward_from, st.count + 1, m.timeSig.getD st.time_sig⟩ := by
  rw [step_eq n st m _ _ _ (leftBarlineStep_none st m hl)]
  have e : decide (m.right = some RBKind.repeatEnd) = true := decide_eq_true hr
  simp [hl, e, computeNext, hn, hgff]

theorem step_left_none_exists (n : ℕ) (st : BState) (m : RawMeasure) (hl : m.left = none) :
    ∃ d, step n st m = .ok ⟨st.sheet ++ [d], st.go_back_to, st.go_forward_from,
      st.count + 1, m.timeSig.getD st.time_sig⟩ := by
  refine ⟨_, step_eq n st m _ _ _ (leftBarlineStep_none st m hl)⟩

theorem runBuilder_left_none (n : ℕ) (rest : List RawMeasure) :
    ∀ st : BState, (∀ m ∈ rest, m.left = none) →
      ∃ st', runBuilder n st rest = .ok st' ∧ ∃ tl, st'.sheet = st.sheet ++ tl := by
  induction rest with
  | nil =>
      intro st _
      exact ⟨st, rfl, [], by simp⟩
  | cons m rest ih =>
      intro st h
      obtain ⟨d, hd⟩ := step_left_none_exists n st m (h m (List.mem_cons_self m rest))
      rw [runBuilder_cons n st _ m rest hd]
      obtain ⟨st', hrun, tl, hsheet⟩ := ih _ (fun m' hm' => h m' (List.mem_cons_of_mem _ hm'))
      refine ⟨st', hrun, [d] ++ tl, ?_⟩
      rw [hsheet]
      simp

theorem m21_part_ok_of_run (m0 : RawMeasure) (rest' : List RawMeasure) (ts : String)
    (st' : BState) (hts : m0.timeSig = some ts)
    (hrun : runBuilder (m0 :: rest').length ⟨[], 1, 1, 1, ts⟩ (m0 :: rest') = .ok st') :
    m21_part_to_measure_map (m0 :: rest') = .ok st'.sheet := by
  have hstep1 : m21_part_to_measure_map (m0 :: rest') =
      (match m0.timeSig with
        | none => Except.error BErr.attributeError
        | some ts' =>
            match runBuilder (m0 :: rest').length ⟨[], 1, 1, 1, ts'⟩ (m0 :: rest') with
            | .error e => .error e
            | .ok st => .ok st.sheet) := rfl
  rw [hstep1, hts]
  show (match runBuilder (m0 :: rest').length ⟨[], 1, 1, 1, ts⟩ (m0 :: rest') with
    | .error e => .error e
    | .ok st => .ok st.sheet) = Except.ok st'.sheet
  rw [hrun]

/-- C2: for an input of at least 5 measures where measure 1 opens a repeat,
measure 4 closes it, and no other measure carries a repeat flag or a left
barline, the builder yields `next = [2]` for measure 1 and `next = [1, 5]`
for measure 4. -/
theorem repeat_example (m0 m1 m2 m3 : RawMeasure) (rest : List RawMeasure)
    (hrest : rest ≠ [])
    (hts : m0.timeSig.isSome = true)
    (h0l : m0.left = some LBKind.repeatStart) (h0r : m0.right ≠ some RBKind.repeatEnd)
    (h1l : m1.left = none) (h1r : m1.right ≠ some RBKind.repeatEnd)
    (h2l : m2.left = none) (h2r : m2.right ≠ some RBKind.repeatEnd)
    (h3l : m3.left = none) (h3r : m3.right = some RBKind.repeatEnd)
    (hrl : ∀ m ∈ rest, m.left = none)
    (hrr : ∀ m ∈ rest, m.right ≠ some RBKind.repeatEnd) :
    ∃ sheet, m21_part_to_measure_map (m0 :: m1 :: m2 :: m3 :: rest) = .ok sheet ∧
      (sheet.get? 0).map MDict.next = some [2] ∧
      (sheet.get? 3).map MDict.next = some [1, 5] := by
  obtain ⟨ts, hts'⟩ := Option.isSome_iff_exists.mp hts
  have hlen : (m0 :: m1 :: m2 :: m3 :: rest).length = rest.length + 4 := by
    simp
  have hrlen : 1 ≤ rest.length := List.length_pos.mpr hrest
  set n := (m0 :: m1 :: m2 :: m3 :: rest).length with hn
  have hn5 : 5 ≤ n := by omega
  have s0 : step n ⟨[], 1, 1, 1, ts⟩ m0 =
      .ok ⟨[⟨1, m0.offset, m0.number, ts, m0.barDuration, m0.duration, true, false, [2]⟩],
        1, 1, 2, ts⟩ := by
    have := step_start_simple n ⟨[], 1, 1, 1, ts⟩ m0 h0l h0r (by show (1 : ℕ) + 1 ≤ n; omega)
    simpa [hts'] using this
  have s1 : step n ⟨[⟨1, m0.offset, m0.number, ts, m0.barDuration, m0.duration, true, false, [2]⟩],
        1, 1, 2, ts⟩ m1 =
      .ok ⟨[⟨1, m0.offset, m0.number, ts, m0.barDuration, m0.duration, true, false, [2]⟩,
        ⟨2, m1.offset, m1.number, m1.timeSig.getD ts, m1.barDuration, m1.duration, false, false, [3]⟩],
        1, 1, 3, m1.timeSig.getD ts⟩ := by
    have := step_plain_simple n
      ⟨[⟨1, m0.offset, m0.number, ts, m0.barDuration, m0.duration, true, false, [2]⟩], 1, 1, 2, ts⟩
      m1 h1l h1r (by show (2 : ℕ) + 1 ≤ n; omega)
    simpa using this
  have s2 : step n ⟨[⟨1, m0.offset, m0.number, ts, m0.barDuration, m0.duration, true, false, [2]⟩,
        ⟨2, m1.offset, m1.number, m1.timeSig.getD ts, m1.barDuration, m1.duration, false, false, [3]⟩],
        1, 1, 3, m1.timeSig.getD ts⟩ m2 =
      .ok ⟨[⟨1, m0.offset, m0.number, ts, m0.barDuration, m0.duration, true, false, [2]⟩,
        ⟨2, m1.offset, m1.number, m1.timeSig.getD ts, m1.barDuration, m1.duration, false, false, [3]⟩,
        ⟨3, m2.offset, m2.number, m2.timeSig.getD (m1.timeSig.getD ts), m2.barDuration, m2.duration, false, false, [4]⟩],
        1, 1, 4, m2.timeSig.getD (m1.timeSig.getD ts)⟩ := by
    have := step_plain_simple n
      ⟨[⟨1, m0.offset, m0.number, ts, m0.barDuration, m0.duration, true, false, [2]⟩,
        ⟨2, m1.offset, m1.number, m1.timeSig.getD ts, m1.barDuration, m1.duration, false, false, [3]⟩],
        1, 1, 3, m1.timeSig.getD ts⟩
      m2 h2l h2r (by show (3 : ℕ) + 1 ≤ n; omega)
    simpa using this
  have s3 : step n ⟨[⟨1, m0.offset, m0.number, ts, m0.barDuration, m0.duration, true, false, [2]⟩,
        ⟨2, m1.offset, m1.number, m1.timeSig.getD ts, m1.barDuration, m1.duration, false, false, [3]⟩,
        ⟨3, m2.offset, m2.number, m2.timeSig.getD (m1.timeSig.getD ts), m2.barDuration, m2.duration, false, false, [4]⟩],
        1, 1, 4, m2.timeSig.getD (m1.timeSig.getD ts)⟩ m3 =
      .ok ⟨[⟨1, m0.offset, m0.number, ts, m0.barDuration, m0.duration, true, false, [2]⟩,
        ⟨2, m1.offset, m1.number, m1.timeSig.getD ts, m1.barDuration, m1.duration, false, false, [3]⟩,
        ⟨3, m2.offset, m2.number, m2.timeSig.getD (m1.timeSig.getD ts), m2.barDuration, m2.duration, false, false, [4]⟩,
        ⟨4, m3.offset, m3.number, m3.timeSig.getD (m2.timeSig.getD (m1.timeSig.getD ts)), m3.barDuration, m3.duration, false, true, [1, 5]⟩],
        1, 1, 5, m3.timeSig.getD (m2.timeSig.getD (m1.timeSig.getD ts))⟩ := by
    have := step_endrep_gff1 n
      ⟨[⟨1, m0.offset, m0.number, ts, m0.barDuration, m0.duration, true, false, [2]⟩,
        ⟨2, m1.offset, m1.number, m1.timeSig.getD ts, m1.barDuration, m1.duration, false, false, [3]⟩,
        ⟨3, m2.offset, m2.number, m2.timeSig.getD (m1.timeSig.getD ts), m2.barDuration, m2.duration, false, false, [4]⟩],
        1, 1, 4, m2.timeSig.getD (m1.timeSig.getD ts)⟩
      m3 h3l h3r rfl (by show (4 : ℕ) + 1 ≤ n; omega)
    simpa using this
  obtain ⟨st', hrun, tl, hsheet⟩ := runBuilder_left_none n rest
    ⟨[⟨1, m0.offset, m0.number, ts, m0.barDuration, m0.duration, true, false, [2]⟩,
      ⟨2, m1.offset, m1.number, m1.timeSig.getD ts, m1.barDuration, m1.duration, false, false, [3]⟩,
      ⟨3, m2.offset, m2.number, m2.timeSig.getD (m1.timeSig.getD ts), m2.barDuration, m2.duration, false, false, [4]⟩,
      ⟨4, m3.offset, m3.number, m3.timeSig.getD (m2.timeSig.getD (m1.timeSig.getD ts)), m3.barDuration, m3.duration, false, true, [1, 5]⟩],
      1, 1, 5, m3.timeSig.getD (m2.timeSig.getD (m1.timeSig.getD ts))⟩ hrl
  have hfull : runBuilder n ⟨[], 1, 1, 1, ts⟩ (m0 :: m1 :: m2 :: m3 :: rest) = .ok st' := by
    rw [runBuilder_cons n _ _ m0 _ s0, runBuilder_cons n _ _ m1 _ s1,
      runBuilder_cons n _ _ m2 _ s2, runBuilder_cons n _ _ m3 _ s3]
    exact hrun
  refine ⟨st'.sheet, m21_part_ok_of_run m0 _ ts st' hts' hfull, ?_, ?_⟩ <;>
    rw [hsheet] <;> simp

/-- Concrete instantiation of `repeat_example` on a five-measure part. -/
theorem repeat_example_witness :
    ∃ sheet, m21_part_to_measure_map
        (rawMeasure (some "4/4") (some LBKind.repeatStart) none ::
          rawMeasure none none none :: rawMeasure none none none ::
          rawMeasure none none (some RBKind.repeatEnd) :: [rawMeasure none none none])
        = .ok sheet ∧
      (sheet.get? 0).map MDict.next = some [2] ∧
      (sheet.get? 3).map MDict.next = some [1, 5] :=
  repeat_example _ _ _ _ _ (by decide) (by decide) (by decide) (by decide) (by decide)
    (by decide) (by decide) (by decide) (by decide) (by decide) (by decide) (by decide)

/-- The input refuting the claim that `next` lists are deduplicated: measure
1 closes a repeat and measure 2 has a regular left barline, so the
retroactive append adds `2` to measure 1's `next` a second time. -/
def exC4 : List RawMeasure :=
  [rawMeasure (some "4/4") none (some RBKind.repeatEnd),
    rawMeasure none (some LBKind.regular) none,
    rawMeasure none none none]

/-- C4 counterexample: the builder emits the `next` list `[1, 2, 2]` for the
first measure of `exC4`, which contains a duplicate, so `next` lists are not
deduplicated. -/
theorem next_dedup_counterexample :
    (m21_part_to_measure_map exC4).map (fun s => s.map MDict.next) = .ok [[1, 2, 2], [3], []] ∧
      ¬ ([1, 2, 2] : List ℕ).Nodup := by
  constructor
  · rfl
  · decide

theorem step_no_regular (n : ℕ) (st : BState) (m : RawMeasure)
    (hm : m.left ≠ some LBKind.regular) (hgbt : st.go_back_to ≤ st.count) :
    ∃ gbt1, step n st m = .ok ⟨st.sheet ++
        [⟨st.count, m.offset, m.number, m.timeSig.getD st.time_sig, m.barDuration, m.duration,
          decide (m.left = some LBKind.repeatStart), decide (m.right = some RBKind.repeatEnd),
          computeNext n st.count gbt1 st.go_forward_from (decide (m.right = some RBKind.repeatEnd))⟩],
        gbt1, st.go_forward_from, st.count + 1, m.timeSig.getD st.time_sig⟩ ∧
      gbt1 ≤ st.count := by
  cases hml : m.left with
  | none =>
      have h := step_eq n st m _ _ _ (leftBarlineStep_none st m hml)
      rw [hml] at h
      exact ⟨st.go_back_to, h, hgbt⟩
  | some lb =>
      cases lb with
      | repeatStart =>
          have h := step_eq n st m _ _ _ (leftBarlineStep_repeatStart st m hml)
          rw [hml] at h
          exact ⟨st.count, h, le_refl _⟩
      | regular => exact absurd hml hm
      | other =>
          have h := step_eq n st m _ _ _ (leftBarlineStep_otherBar st m hml)
          rw [hml] at h
          exact ⟨st.go_back_to, h, hgbt⟩

theorem runBuilder_no_regular (n : ℕ) (ms : List RawMeasure) :
    ∀ st : BState, (∀ m ∈ ms, m.left ≠ some LBKind.regular) →
      st.go_back_to ≤ st.count → (∀ d ∈ st.sheet, d.next.Nodup) →
      ∀ st', runBuilder n st ms = .ok st' → ∀ d ∈ st'.sheet, d.next.Nodup := by
  induction ms with
  | nil =>
      intro st _ _ hsheet st' hrun
      cases hrun
      exact hsheet
  | cons m ms ih =>
      intro st hreg hgbt hsheet st' hrun
      obtain ⟨gbt1, hstep, hgbt1⟩ :=
        step_no_regular n st m (hreg m (List.mem_cons_self m ms)) hgbt
      rw [runBuilder_cons n st _ m ms hstep] at hrun
      refine ih _ (fun m' hm' => hreg m' (List.mem_cons_of_mem _ hm'))
        (show gbt1 ≤ st.count + 1 by omega) ?_ st' hrun
      intro d hd
      rcases List.mem_append.mp hd with hd | hd
      · exact hsheet d hd
      · rcases List.mem_singleton.mp hd with rfl
        exact computeNext_nodup n st.count gbt1 st.go_forward_from _ hgbt1

/-- C4 amended: when no measure carries a regular left barline (so the
retroactive append of extract.py line 59 never fires), every `next` list the
builder emits is duplicate-free; in general the builder performs no
deduplication, and retroactive appends can introduce duplicates. -/
theorem next_nodup_no_regular (ms : List RawMeasure) (sheet : List MDict)
    (hreg : ∀ m ∈ ms, m.left ≠ some LBKind.regular)
    (hok : m21_part_to_measure_map ms = .ok sheet) :
    ∀ d ∈ sheet, d.next.Nodup := by
  cases ms with
  | nil => simp [m21_part_to_measure_map] at hok
  | cons m0 rest =>
      cases hts : m0.timeSig with
      | none => simp [m21_part_to_measure_map, hts] at hok
      | some ts =>
          cases hrun : runBuilder (rest.length + 1) ⟨[], 1, 1, 1, ts⟩ (m0 :: rest) with
          | error e => simp [m21_part_to_measure_map, hts, hrun] at hok
          | ok st1 =>
              have h2 : m21_part_to_measure_map (m0 :: rest) = .ok st1.sheet := by
                simp [m21_part_to_measure_map, hts, hrun]
              rw [h2] at hok
              have hsheet : st1.sheet = sheet := by injection hok
              subst hsheet
              exact runBuilder_no_regular _ _ ⟨[], 1, 1, 1, ts⟩ hreg (le_refl 1)
                (by intro d hd; cases hd) st1 hrun

/-- Concrete instantiation of `next_nodup_no_regular` on a two-measure part
with a repeat at each end, evaluated at its first emitted dictionary. -/
theorem next_nodup_no_regular_witness :
    (⟨1, 0, 1, "4/4", 4, 4, true, false, [2]⟩ : MDict).next.Nodup :=
  next_nodup_no_regular
    [rawMeasure (some "4/4") (some LBKind.repeatStart) none,
      rawMeasure none none (some RBKind.repeatEnd)]
    [⟨1, 0, 1, "4/4", 4, 4, true, false, [2]⟩, ⟨2, 0, 1, "4/4", 4, 4, false, true, [1]⟩]
    (by decide) (by rfl)
    ⟨1, 0, 1, "4/4", 4, 4, true, false, [2]⟩ (List.mem_cons_self _ _)

/-- C5 counterexample: a one-measure part with a time signature and a
regular (plain) left barline on the very first measure makes the builder
raise `IndexError` (extract.py line 57 indexes the empty
`sheet_measure_map`), refuting the claim that it completes without raising
for every barline combination. -/
theorem builder_raises_counterexample :
    (rawMeasure (some "4/4") (some LBKind.regular) none).timeSig.isSome = true ∧
      m21_part_to_measure_map [rawMeasure (some "4/4") (some LBKind.regular) none] =
        .error BErr.indexError :=
  ⟨rfl, rfl⟩

/-- Invariant of every reachable builder state: the sheet holds `count - 1`
dictionaries, and `go_forward_from` is at least 1 and below `count` except
in the initial state. -/
def BInv (st : BState) : Prop :=
  st.sheet.length + 1 = st.count ∧ 1 ≤ st.go_forward_from ∧
    (st.go_forward_from < st.count ∨ (st.count = 1 ∧ st.go_forward_from = 1))

theorem leftBarlineStep_regular_ok (st : BState) (m : RawMeasure)
    (hml : m.left = some LBKind.regular)
    (hlen : st.sheet.length + 1 = st.count) (hcnt : 2 ≤ st.count)
    (hgff1 : 1 ≤ st.go_forward_from) (hgff2 : st.go_forward_from < st.count) :
    ∃ sheet1 gff1, leftBarlineStep st m = .ok (sheet1, st.go_back_to, gff1) ∧
      sheet1.length = st.sheet.length ∧ 1 ≤ gff1 ∧ gff1 < st.count := by
  have hg : pyGet st.sheet ((st.count : ℤ) - 2) =
      .ok (st.sheet.getD (st.count - 2) mdictDefault) := by
    unfold pyGet pyIdx
    have h1 : (0 : ℤ) ≤ (st.count : ℤ) - 2 := by omega
    have h2 : (st.count : ℤ) - 2 < (st.sheet.length : ℤ) := by omega
    have h3 : ((st.count : ℤ) - 2).toNat = st.count - 2 := by omega
    rw [if_pos ⟨h1, h2⟩, h3]
  by_cases he : (st.sheet[st.count - 2]?.getD mdictDefault).end_repeat = true
  · have hpa : ∃ s1, pyAppendNext st.sheet ((st.go_forward_from : ℤ) - 1) st.count = .ok s1 ∧
        s1.length = st.sheet.length := by
      unfold pyAppendNext pyIdx
      have h1 : (0 : ℤ) ≤ (st.go_forward_from : ℤ) - 1 := by omega
      have h2 : (st.go_forward_from : ℤ) - 1 < (st.sheet.length : ℤ) := by omega
      rw [if_pos ⟨h1, h2⟩]
      exact ⟨_, rfl, List.length_set _ _ _⟩
    obtain ⟨s1, hpa', hlen1⟩ := hpa
    refine ⟨s1, st.go_forward_from, ?_, hlen1, hgff1, hgff2⟩
    simp [leftBarlineStep, hml, hg, hpa', he]
  · refine ⟨st.sheet, st.count - 1, ?_, rfl, by omega, by omega⟩
    simp [leftBarlineStep, hml, hg, he]

theorem step_total_of_inv (n : ℕ) (st : BState) (m : RawMeasure)
    (hinv : BInv st) (h1 : st.count = 1 → m.left ≠ some LBKind.regular) :
    ∃ st', step n st m = .ok st' ∧ BInv st' ∧ st'.count = st.count + 1 := by
  obtain ⟨hlen, hgff1, hgff2⟩ := hinv
  cases hml : m.left with
  | none =>
      refine ⟨_, step_eq n st m _ _ _ (leftBarlineStep_none st m hml), ⟨?_, hgff1, ?_⟩, rfl⟩
      · show (st.sheet ++ [_]).length + 1 = st.count + 1
        simp [List.length_append]
        omega
      · show st.go_forward_from < st.count + 1 ∨ _
        left
        omega
  | some lb =>
      cases lb with
      | repeatStart =>
          refine ⟨_, step_eq n st m _ _ _ (leftBarlineStep_repeatStart st m hml),
            ⟨?_, hgff1, ?_⟩, rfl⟩
          · show (st.sheet ++ [_]).length + 1 = st.count + 1
            simp [List.length_append]
            omega
          · show st.go_forward_from < st.count + 1 ∨ _
            left
            omega
      | other =>
          refine ⟨_, step_eq n st m _ _ _ (leftBarlineStep_otherBar st m hml),
            ⟨?_, hgff1, ?_⟩, rfl⟩
          · show (st.sheet ++ [_]).length + 1 = st.count + 1
            simp [List.length_append]
            omega
          · show st.go_forward_from < st.count + 1 ∨ _
            left
            omega
      | regular =>
          have hcnt : 2 ≤ st.count := by
            by_cases hc : st.count = 1
            · exact absurd hml (h1 hc)
            · omega
          have hgff2' : st.go_forward_from < st.count := by
            rcases hgff2 with h | h
            · exact h
            · omega
          obtain ⟨sheet1, gff1, hlbs, hlen1, hg1, hg2⟩ :=
            leftBarlineStep_regular_ok st m hml hlen hcnt hgff1 hgff2'
          refine ⟨_, step_eq n st m _ _ _ hlbs, ⟨?_, hg1, ?_⟩, rfl⟩
          · show (sheet1 ++ [_]).length + 1 = st.count + 1
            simp [List.length_append, hlen1]
            omega
          · show gff1 < st.count + 1 ∨ _
            left
            omega

theorem runBuilder_total (n : ℕ) (ms : List RawMeasure) :
    ∀ st : BState, BInv st → 2 ≤ st.count → ∃ st', runBuilder n st ms = .ok st' := by
  induction ms with
  | nil =>
      intro st _ _
      exact ⟨st, rfl⟩
  | cons m ms ih =>
      intro st hinv hcnt
      obtain ⟨st', hstep, hinv', hcnt'⟩ :=
        step_total_of_inv n st m hinv (fun hc => absurd hc (by omega))
      rw [runBuilder_cons n st st' m ms hstep]
      exact ih st' hinv' (by omega)

/-- C5 amended: for every non-empty measure sequence whose first measure
carries a time signature and whose first measure does not carry a regular
(plain) left barline, the builder completes without raising, whatever the
repeat flags and barlines of all measures; with a regular left barline on
the very first measure it raises `IndexError` instead. -/
theorem builder_total_no_first_regular (m0 : RawMeasure) (rest : List RawMeasure)
    (hts : m0.timeSig.isSome = true) (hreg : m0.left ≠ some LBKind.regular) :
    ∃ sheet, m21_part_to_measure_map (m0 :: rest) = .ok sheet := by
  obtain ⟨ts, hts'⟩ := Option.isSome_iff_exists.mp hts
  have hinv0 : BInv ⟨[], 1, 1, 1, ts⟩ := ⟨rfl, le_refl 1, Or.inr ⟨rfl, rfl⟩⟩
  obtain ⟨st1, hstep, hinv1, hcnt1⟩ :=
    step_total_of_inv (m0 :: rest).length ⟨[], 1, 1, 1, ts⟩ m0 hinv0 (fun _ => hreg)
  have hcnt2 : st1.count = 2 := hcnt1
  obtain ⟨st', hrun⟩ := runBuilder_total (m0 :: rest).length rest st1 hinv1 (by omega)
  refine ⟨st'.sheet, m21_part_ok_of_run m0 rest ts st' hts' ?_⟩
  rw [runBuilder_cons _ _ _ _ _ hstep]
  exact hrun

/-- Concrete instantiation of `builder_total_no_first_regular`: a part
whose two measures both open and close repeats builds successfully. -/
theorem builder_total_no_first_regular_witness :
    ∃ sheet, m21_part_to_measure_map
      (rawMeasure (some "4/4") (some LBKind.repeatStart) (some RBKind.repeatEnd) ::
        [rawMeasure none (some LBKind.other) none]) = .ok sheet :=
  builder_total_no_first_regular _ _ (by rfl) (by decide)

/-- Errors of `m21_stream_to_measure_map`: an error propagated from the
per-part builder, the `ValueError` for a stream that is neither part nor
score, the `IndexError` for a score without parts, and the `ValueError`
raised when part `part` does not match part 0 (extract.py line 121). -/
inductive XErr where
  | builder (e : BErr)
  | onlyAccepts
  | noParts
  | partsMismatch (part : ℕ)
deriving DecidableEq, Repr

/-- A music21 stream as consumed by `m21_stream_to_measure_map`: a part, a
score holding a list of parts, or any other kind of stream. -/
inductive M21Stream where
  | part (measures : List RawMeasure)
  | score (parts : List (List RawMeasure))
  | other

/-- The comparison loop of `m21_stream_to_measure_map` (extract.py, lines
118-121): build each further part's map and raise naming the part index on
the first mismatch.  Map inequality `!=` is modelled, from the spec, as
structural inequality of the measure-dictionary lists (two Measure Maps are
equal iff their entries are pairwise equal in order). -/
def checkParts (measure_map : List MDict) : ℕ → List (List RawMeasure) → Except XErr (List MDict)
  | _, [] => .ok measure_map
  | i, p :: ps =>
      match m21_part_to_measure_map p with
      | .error e => .error (.builder e)
      | .ok pmm =>
          if pmm = measure_map then checkParts measure_map (i + 1) ps
          else .error (.partsMismatch i)

/-- Embedding of `m21_stream_to_measure_map` (extract.py, lines 89-123). -/
def m21_stream_to_measure_map (s : M21Stream) (check_parts_match : Bool) :
    Except XErr (List MDict) :=
  match s with
  | .part ms =>
      match m21_part_to_measure_map ms with
      | .error e => .error (.builder e)
      | .ok mm => .ok mm
  | .other => .error .onlyAccepts
  | .score parts =>
      match parts with
      | [] => .error .noParts
      | p0 :: rest =>
          match m21_part_to_measure_map p0 with
          | .error e => .error (.builder e)
          | .ok measure_map =>
              if check_parts_match = false then .ok measure_map
              else if (p0 :: rest).length < 2 then .ok measure_map
              else checkParts measure_map 1 rest

theorem checkParts_spec (mm0 : List MDict) (rest : List (List RawMeasure)) :
    ∀ k : ℕ, (∀ p ∈ rest, ∃ s, m21_part_to_measure_map p = .ok s) →
      (checkParts mm0 k rest = .ok mm0 ∧ ∀ p ∈ rest, m21_part_to_measure_map p = .ok mm0) ∨
      (∃ i, ∃ h : i < rest.length, m21_part_to_measure_map (rest.get ⟨i, h⟩) ≠ .ok mm0 ∧
        (∀ j (hj : j < rest.length), j < i → m21_part_to_measure_map (rest.get ⟨j, hj⟩) = .ok mm0) ∧
        checkParts mm0 k rest = .error (.partsMismatch (k + i))) := by
  induction rest with
  | nil =>
      intro k _
      left
      exact ⟨rfl, by simp⟩
  | cons p ps ih =>
      intro k hall
      obtain ⟨s, hs⟩ := hall p (List.mem_cons_self p ps)
      by_cases heq : s = mm0
      · rw [heq] at hs
        have hred : checkParts mm0 k (p :: ps) = checkParts mm0 (k + 1) ps := by
          simp [checkParts, hs]
        rcases ih (k + 1) (fun p' hp' => hall p' (List.mem_cons_of_mem _ hp')) with
          h | ⟨i, hi, hne, hfirst, herr⟩
        · left
          refine ⟨by rw [hred]; exact h.1, ?_⟩
          intro p' hp'
          rcases List.mem_cons.mp hp' with rfl | hp'
          · exact hs
          · exact h.2 p' hp'
        · right
          refine ⟨i + 1, Nat.succ_lt_succ hi, ?_, ?_, ?_⟩
          · simpa using hne
          · intro j hj hji
            cases j with
            | zero => simpa using hs
            | succ j' =>
                have hj' : j' < ps.length := by
                  simp at hj
                  omega
                have hj'i : j' < i := by omega
                simpa using hfirst j' hj' hj'i
          · rw [hred]
            have harith : k + 1 + i = k + (i + 1) := by omega
            rw [herr, harith]
      · right
        refine ⟨0, by simp, ?_, ?_, ?_⟩
        · intro hcon
          simp at hcon
          rw [hs] at hcon
          exact heq (by injection hcon)
        · intro j hj hj0
          omega
        · have hck : checkParts mm0 k (p :: ps) = .error (.partsMismatch k) := by
            simp [checkParts, hs, heq]
          rw [hck]
          rfl

/-- C8: for a multi-part score processed with the parts-match check
enabled, where every part builds successfully, either every part's
independently built map equals part 0's map field by field and part 0's map
is returned, or the raised error names the first part position whose map
differs from part 0's.  Map equality is modelled, from the spec, as
pairwise equality of the measure entries in order. -/
theorem parts_match_check (p0 : List RawMeasure) (rest : List (List RawMeasure))
    (mm0 : List MDict) (hrest : rest ≠ [])
    (h0 : m21_part_to_measure_map p0 = .ok mm0)
    (hall : ∀ p ∈ rest, ∃ s, m21_part_to_measure_map p = .ok s) :
    (m21_stream_to_measure_map (.score (p0 :: rest)) true = .ok mm0 ∧
      ∀ p ∈ rest, m21_part_to_measure_map p = .ok mm0) ∨
    (∃ i, ∃ h : i < rest.length, m21_part_to_measure_map (rest.get ⟨i, h⟩) ≠ .ok mm0 ∧
      (∀ j (hj : j < rest.length), j < i → m21_part_to_measure_map (rest.get ⟨j, hj⟩) = .ok mm0) ∧
      m21_stream_to_measure_map (.score (p0 :: rest)) true = .error (.partsMismatch (1 + i))) := by
  have hlen : 1 ≤ rest.length := List.length_pos.mpr hrest
  have hred : m21_stream_to_measure_map (.score (p0 :: rest)) true = checkParts mm0 1 rest := by
    simp only [m21_stream_to_measure_map, h0]
    rw [if_neg (by simp)]
    rw [if_neg (by simp; omega)]
  rcases checkParts_spec mm0 rest 1 hall with h | ⟨i, hi, h1, h2, h3⟩
  · left
    exact ⟨by rw [hred]; exact h.1, h.2⟩
  · right
    exact ⟨i, hi, h1, h2, by rw [hred]; exact h3⟩

/-- A one-measure part used by witnesses for the multi-part check. -/
def exPart : List RawMeasure := [rawMeasure (some "4/4") none none]

/-- Concrete instantiation of `parts_match_check` on a two-part score whose
parts agree. -/
theorem parts_match_check_witness :
    (m21_stream_to_measure_map (.score (exPart :: [exPart])) true =
        .ok [⟨1, 0, 1, "4/4", 4, 4, false, false, []⟩] ∧
      ∀ p ∈ [exPart], m21_part_to_measure_map p =
        .ok [⟨1, 0, 1, "4/4", 4, 4, false, false, []⟩]) ∨
    (∃ i, ∃ h : i < [exPart].length,
      m21_part_to_measure_map ([exPart].get ⟨i, h⟩) ≠
        .ok [⟨1, 0, 1, "4/4", 4, 4, false, false, []⟩] ∧
      (∀ j (hj : j < [exPart].length), j < i → m21_part_to_measure_map ([exPart].get ⟨j, hj⟩) =
        .ok [⟨1, 0, 1, "4/4", 4, 4, false, false, []⟩]) ∧
      m21_stream_to_measure_map (.score (exPart :: [exPart])) true =
        .error (.partsMismatch (1 + i))) :=
  parts_match_check exPart [exPart] _ (by decide) (by rfl)
    (by
      intro p hp
      rw [List.mem_singleton] at hp
      subst hp
      exact ⟨_, rfl⟩)

/-- A measures table as consumed by `measures_df2measure_map` (convert.py):
the required columns `mc, mn, timesig, act_dur, repeats, next` and the
optional columns `volta`, `quarterbeats`, `quarterbeats_all_endings`.
Missing values (`pd.NA`/`NaN`) are modelled as `Option`. -/
structure MeasuresDF where
  mc : List ℤ
  mn : List ℤ
  volta : Option (List (Option ℤ))
  timesig : List String
  quarterbeats : Option (List (Option ℚ))
  quarterbeats_all_endings : Option (List (Option ℚ))
  act_dur : List ℚ
  repeats : List (Option String)
  next : List (List ℤ)
deriving DecidableEq

/-- Errors `measures_df2measure_map` can raise: the `ValueError` for NA
values in the qstamp column (convert.py line 56), a `KeyError` when neither
quarterbeats column exists, and the `ValueError` from `Fraction` on an
unparseable time signature. -/
inductive ConvErr where
  | naError
  | keyError
  | fractionError
deriving DecidableEq, Repr

/-- The column array handed to `MeasureMap.from_array` (convert.py, lines
64-76).  `name` entries are lists of Unicode codepoints, because Python's
`chr` can produce lone surrogates that no Lean `String` can hold. -/
structure MMCols where
  ID : List String
  count : List ℤ
  qstamp : List ℚ
  number : List ℤ
  name : List (List ℕ)
  time_signature : List String
  nominal_length : List ℚ
  actual_length : List ℚ
  start_repeat : List Bool
  end_repeat : List Bool
  next : List (List ℤ)
deriving DecidableEq

/-- Codepoints of `str(n)` for an integer `n`. -/
def intCodes (n : ℤ) : List ℕ :=
  (toString n).toList.map Char.toNat

/-- Embedding of `make_repeat_char` (convert.py, lines 37-44): `pd.isnull`
gives the empty string; otherwise `chr(int(val) + 96)`, whose `ValueError`
for a codepoint outside `[0, 0x10FFFF]` is caught and also yields the empty
string.  The result is the (possibly empty) codepoint list of the suffix. -/
def make_repeat_char (val : Option ℤ) : List ℕ :=
  match val with
  | none => []
  | some v => if 0 ≤ v + 96 ∧ v + 96 ≤ 1114111 then [(v + 96).toNat] else []

/-- Value of a digit string, accumulated left to right; `none` on a
non-digit character. -/
def digitsVal : List Char → ℕ → Option ℕ
  | [], acc => some acc
  | c :: rest, acc =>
      if 48 ≤ c.toNat ∧ c.toNat ≤ 57 then digitsVal rest (acc * 10 + (c.toNat - 48))
      else none

/-- `int(s)` for a non-empty digit string. -/
def parseNatChars (cs : List Char) : Option ℕ :=
  match cs with
  | [] => none
  | _ => digitsVal cs 0

/-- `int(s)` with an optional leading minus sign. -/
def parseIntChars (cs : List Char) : Option ℤ :=
  match cs with
  | [] => none
  | c :: rest =>
      if c = '-' then (parseNatChars rest).map (fun n => -(n : ℤ))
      else (parseNatChars cs).map (fun n => (n : ℤ))

/-- Split a character list on `/`, as `Fraction` does for `"a/b"`. -/
def splitSlash : List Char → List (List Char)
  | [] => [[]]
  | c :: rest =>
      if c = '/' then [] :: splitSlash rest
      else
        match splitSlash rest with
        | [] => [[c]]
        | g :: gs => (c :: g) :: gs

/-- Parser for `Fraction(s)` restricted to the `"a/b"` and integer string
forms that time signatures take; division by zero or an unparseable field
raises (is `none`). -/
def parseFrac (s : String) : Option ℚ :=
  match splitSlash s.toList with
  | [a] => (parseIntChars a).map (fun z => (z : ℚ))
  | [a, b] =>
      match parseIntChars a, parseIntChars b with
      | some x, some y => if y = 0 then none else some ((x : ℚ) / (y : ℚ))
      | _, _ => none
  | _ => none

/-- Python `pat in s` substring test, used by `Series.str.contains`. -/
def containsSub (s pat : String) : Bool :=
  decide (List.IsInfix pat.toList s.toList)

/-- `measures_df.timesig.map(Fraction)`: parse every time signature,
raising (yielding `none`) on the first unparseable one. -/
def parseTimesigs : List String → Option (List ℚ)
  | [] => some []
  | s :: rest =>
      match parseFrac s with
      | none => none
      | some q =>
          match parseTimesigs rest with
          | none => none
          | some qs => some (q :: qs)

/-- Selection of the qstamp source column (convert.py, lines 51-54):
`quarterbeats_all_endings` if present, else `quarterbeats`; a `KeyError` if
neither column exists. -/
def qcolSelect (df : MeasuresDF) : Except ConvErr (List (Option ℚ)) :=
  match df.quarterbeats_all_endings with
  | some c => .ok c
  | none =>
      match df.quarterbeats with
      | some c => .ok c
      | none => .error ConvErr.keyError

/-- Embedding of `measures_df2measure_map` (convert.py, lines 14-76):
rename/derive the columns, raise on NA in the chosen quarterbeats column,
convert time signatures through `Fraction` times 4, scale `act_dur` by 4,
derive the repeat flags by substring containment, and hand the columns to
`MeasureMap.from_array` (modelled as packaging the columns, since base.py
is not part of the provided sources). -/
def measures_df2measure_map (df : MeasuresDF) : Except ConvErr MMCols :=
  let id_col := df.mc.map (fun n => toString n)
  let name_col : List (List ℕ) :=
    match df.volta with
    | some vcol => List.zipWith (fun n v => intCodes n ++ make_repeat_char v) df.mn vcol
    | none => df.mn.map intCodes
  match qcolSelect df with
  | .error e => .error e
  | .ok qcol =>
      if qcol.any (fun o => o.isNone) then .error .naError
      else
        match parseTimesigs df.timesig with
        | none => .error .fractionError
        | some fracs =>
            .ok ⟨id_col, df.mc, qcol.map (fun o => o.getD 0), df.mn, name_col, df.timesig,
              fracs.map (fun q => q * 4), df.act_dur.map (fun q => q * 4),
              df.repeats.map (fun o =>
                match o with
                | some s => containsSub s ("start")
                | none => false),
              df.repeats.map (fun o =>
                match o with
                | some s => containsSub s ("end")
                | none => false),
              df.next⟩

/-- The column `measures_df2measure_map` uses for qstamp, when it exists. -/
def chosenQCol (df : MeasuresDF) : Option (List (Option ℚ)) :=
  match df.quarterbeats_all_endings with
  | some c => some c
  | none => df.quarterbeats

/-- C7: conversion raises the NA `ValueError` and produces no map exactly
when the column used for qstamp (`quarterbeats_all_endings` when present,
otherwise `quarterbeats`) contains an NA value; with no NA there, that
error is never raised (other failures, e.g. an unparseable time signature,
raise different errors). -/
theorem qstamp_na_check (df : MeasuresDF) :
    measures_df2measure_map df = .error ConvErr.naError ↔
      ∃ col, chosenQCol df = some col ∧ col.any (fun o => o.isNone) = true := by
  have hq : qcolSelect df = match chosenQCol df with
      | some c => .ok c
      | none => .error ConvErr.keyError := by
    unfold qcolSelect chosenQCol
    cases df.quarterbeats_all_endings <;> cases df.quarterbeats <;> rfl
  cases hc : chosenQCol df with
  | none =>
      rw [hc] at hq
      simp [measures_df2measure_map, hq, hc]
  | some col =>
      rw [hc] at hq
      by_cases hna : (none : Option ℚ) ∈ col
      · simp [measures_df2measure_map, hq, hc, hna]
      · cases hm : parseTimesigs df.timesig with
        | none => simp [measures_df2measure_map, hq, hc, hna, hm]
        | some fracs => simp [measures_df2measure_map, hq, hc, hna, hm]

theorem convert_eval (df : MeasuresDF) (qcol : List (Option ℚ)) (fracs : List ℚ)
    (hq : qcolSelect df = .ok qcol)
    (hna : qcol.any (fun o => o.isNone) = false)
    (hm : parseTimesigs df.timesig = some fracs) :
    measures_df2measure_map df = .ok
      ⟨df.mc.map (fun n => toString n), df.mc, qcol.map (fun o => o.getD 0), df.mn,
        (match df.volta with
          | some vcol => List.zipWith (fun n v => intCodes n ++ make_repeat_char v) df.mn vcol
          | none => df.mn.map intCodes),
        df.timesig, fracs.map (fun q => q * 4), df.act_dur.map (fun q => q * 4),
        df.repeats.map (fun o =>
          match o with
          | some s => containsSub s ("start")
          | none => false),
        df.repeats.map (fun o =>
          match o with
          | some s => containsSub s ("end")
          | none => false),
        df.next⟩ := by
  simp [measures_df2measure_map, hq, hna, hm]

/-- The volta value of row `i` in a table, `none` when the column is absent
or the entry is NA. -/
def voltaAt (df : MeasuresDF) (i : ℕ) : Option ℤ :=
  match df.volta with
  | some vcol =>
      match vcol.get? i with
      | some v => v
      | none => none
  | none => none

/-- The C9 claim as stated: in every converted table, every row's name is
the codepoints of `str(mn)` followed by a suffix that is the single
character of codepoint `volta + 96` whenever the row has a volta value, and
that is empty exactly when it has none. -/
def c9Stated : Prop :=
  ∀ (df : MeasuresDF) (cols : MMCols), measures_df2measure_map df = .ok cols →
    ∀ (i : ℕ) (n : ℤ), df.mn.get? i = some n →
      ∃ suffix : List ℕ, cols.name.get? i = some (intCodes n ++ suffix) ∧
        (suffix = [] ↔ voltaAt df i = none) ∧
        ∀ v : ℤ, voltaAt df i = some v → suffix = [(v + 96).toNat]

/-- A one-row table whose volta value `-100` makes `chr(-100 + 96)` raise
inside `make_repeat_char`, so the suffix is empty although a volta value is
present. -/
def exDfC9 : MeasuresDF :=
  ⟨[1], [5], some [some (-100)], ["4/4"], some [some 0], none, [1], [none], [[]]⟩

/-- C9 counterexample: on `exDfC9` the converted name is plain `"5"` (the
suffix is empty) even though the row carries the volta value `-100`, so the
suffix is not empty exactly when the volta value is missing, refuting the
claim as stated. -/
theorem volta_suffix_counterexample : ¬ c9Stated := by
  intro h
  have hq : qcolSelect exDfC9 = .ok [some 0] := rfl
  have hna : ([some (0 : ℚ)].any (fun o => o.isNone)) = false := rfl
  obtain ⟨fracs, hm⟩ : ∃ fr, parseTimesigs exDfC9.timesig = some fr := ⟨_, rfl⟩
  have hcols := convert_eval exDfC9 _ _ hq hna hm
  obtain ⟨suffix, h1, h2, h3⟩ := h exDfC9 _ hcols 0 5 (by rfl)
  have hv : voltaAt exDfC9 0 = some (-100) := by decide
  have hsuf := h3 (-100) hv
  have hmrc : make_repeat_char (some (-100)) = [] := by decide
  have h1' : some (intCodes 5 ++ make_repeat_char (some (-100))) =
      some (intCodes 5 ++ suffix) := h1
  rw [hsuf, hmrc] at h1'
  simp at h1'

/-- C9 amended: the converted name column equals, rowwise, the codepoints
of `str(mn)` followed by `make_repeat_char` of the volta value: for a volta
value `v` with `v + 96` a valid codepoint the suffix is the character of
codepoint `v + 96` (so 1 maps to `a`, 2 to `b`, 3 to `c`); the suffix is
empty when the volta column is absent, the entry is NA, or `chr(v + 96)`
raises (`v + 96` outside `[0, 0x10FFFF]`), the exception being swallowed. -/
theorem name_column (df : MeasuresDF) (cols : MMCols)
    (h : measures_df2measure_map df = .ok cols) :
    cols.name = (match df.volta with
      | some vcol => List.zipWith (fun n v => intCodes n ++ make_repeat_char v) df.mn vcol
      | none => df.mn.map intCodes) ∧
    make_repeat_char none = [] ∧
    (∀ v : ℤ, 0 ≤ v + 96 → v + 96 ≤ 1114111 → make_repeat_char (some v) = [(v + 96).toNat]) ∧
    (∀ v : ℤ, v + 96 < 0 ∨ 1114111 < v + 96 → make_repeat_char (some v) = []) ∧
    make_repeat_char (some 1) = [97] ∧ make_repeat_char (some 2) = [98] ∧
    make_repeat_char (some 3) = [99] := by
  refine ⟨?_, rfl, ?_, ?_, by decide, by decide, by decide⟩
  · cases hq : qcolSelect df with
    | error e => simp [measures_df2measure_map, hq] at h
    | ok qcol =>
        by_cases hna : (none : Option ℚ) ∈ qcol
        · simp [measures_df2measure_map, hq, hna] at h
        · cases hm : parseTimesigs df.timesig with
          | none => simp [measures_df2measure_map, hq, hna, hm] at h
          | some fracs =>
              simp [measures_df2measure_map, hq, hna, hm] at h
              subst h
              rfl
  · intro v h1 h2
    simp [make_repeat_char, h1, h2]
  · intro v hv
    simp only [make_repeat_char]
    rw [if_neg (by omega)]

/-- A measures table with no rows, used to instantiate the name-column
theorem. -/
def exDfNoRows : MeasuresDF :=
  ⟨[], [], none, [], some [], none, [], [], []⟩

/-- Concrete instantiation of `name_column` on the empty table. -/
theorem name_column_witness :
    (⟨[], [], [], [], [], [], [], [], [], [], []⟩ : MMCols).name =
      (match exDfNoRows.volta with
        | some vcol => List.zipWith (fun n v => intCodes n ++ make_repeat_char v) exDfNoRows.mn vcol
        | none => exDfNoRows.mn.map intCodes) ∧
    make_repeat_char none = [] ∧
    (∀ v : ℤ, 0 ≤ v + 96 → v + 96 ≤ 1114111 → make_repeat_char (some v) = [(v + 96).toNat]) ∧
    (∀ v : ℤ, v + 96 < 0 ∨ 1114111 < v + 96 → make_repeat_char (some v) = []) ∧
    make_repeat_char (some 1) = [97] ∧ make_repeat_char (some 2) = [98] ∧
    make_repeat_char (some 3) = [99] :=
  name_column exDfNoRows ⟨[], [], [], [], [], [], [], [], [], [], []⟩
    (convert_eval exDfNoRows [] [] rfl rfl rfl)

/-- A directory tree as walked by `collect_measure_maps` (utils.py, lines
106-115): a directory name, the files it contains, and its
subdirectories. -/
inductive FSTree where
  | mk (dname : String) (files : List String) (subdirs : List FSTree)

/-- The name of the directory at the root of a tree. -/
def FSTree.dname : FSTree → String
  | .mk nm _ _ => nm

/-- Python `filename.endswith(".mm.json")`. -/
def isMMFile (f : String) : Bool :=
  decide (List.IsSuffix ((".mm.json").toList) f.toList)

/-- Python `s.startswith(".")`. -/
def startsDot (s : String) : Bool :=
  match s.toList with
  | [] => false
  | c :: _ => decide (c = '.')

mutual

/-- Embedding of `collect_measure_maps` (utils.py, lines 106-115): walk the
tree top-down, collect every file whose name ends with `.mm.json` (the path
is the directory names from the root followed by the file name, mirroring
`os.path.join(directory, folder, filename)` with `folder` absolute), and
prune every subdirectory whose name starts with a dot before descending. -/
def collect_measure_maps : FSTree → List (List String)
  | .mk nm files subdirs =>
      (files.filter isMMFile).map (fun f => [nm, f]) ++
        (collectSubdirs subdirs).map (fun p => nm :: p)

/-- The walk over the pruned subdirectories, in order. -/
def collectSubdirs : List FSTree → List (List String)
  | [] => []
  | d :: ds =>
      (if startsDot d.dname then [] else collect_measure_maps d) ++ collectSubdirs ds

end

/-- The paths the claim describes: a file of the tree whose name ends with
`.mm.json` and that does not lie below any directory (strictly below the
given root) whose name starts with a dot. -/
inductive IsCollectedFile : FSTree → List String → Prop where
  | here (nm : String) (files : List String) (subdirs : List FSTree) (f : String) :
      f ∈ files → isMMFile f = true → IsCollectedFile (.mk nm files subdirs) [nm, f]
  | child (nm : String) (files : List String) (subdirs : List FSTree) (d : FSTree)
      (p : List String) :
      d ∈ subdirs → startsDot d.dname = false → IsCollectedFile d p →
      IsCollectedFile (.mk nm files subdirs) (nm :: p)

theorem FSTree.inductionOn (motive : FSTree → Prop)
    (ih : ∀ nm files subdirs, (∀ d ∈ subdirs, motive d) → motive (FSTree.mk nm files subdirs)) :
    ∀ t, motive t
  | .mk nm files subdirs => ih nm files subdirs (fun d hd => FSTree.inductionOn motive ih d)
termination_by t => sizeOf t
decreasing_by
  have h := List.sizeOf_lt_of_mem hd
  simp only [FSTree.mk.sizeOf_spec]
  omega

theorem mem_collectSubdirs (ds : List FSTree) (p : List String) :
    p ∈ collectSubdirs ds ↔
      ∃ d ∈ ds, startsDot d.dname = false ∧ p ∈ collect_measure_maps d := by
  induction ds with
  | nil => simp [collectSubdirs]
  | cons d ds ih =>
      simp only [collectSubdirs, List.mem_append]
      rw [ih]
      by_cases hd : startsDot d.dname
      · simp [hd]
      · simp [hd]

theorem collect_sound : ∀ t : FSTree, ∀ p, p ∈ collect_measure_maps t → IsCollectedFile t p := by
  intro t
  induction t using FSTree.inductionOn with
  | ih nm files subdirs hsub =>
      intro p hp
      simp only [collect_measure_maps, List.mem_append, List.mem_map, List.mem_filter] at hp
      rcases hp with ⟨f, ⟨hf, hmmf⟩, rfl⟩ | ⟨p', hp', rfl⟩
      · exact IsCollectedFile.here nm files subdirs f hf hmmf
      · obtain ⟨d, hd, hdot, hpd⟩ := (mem_collectSubdirs subdirs p').mp hp'
        exact IsCollectedFile.child nm files subdirs d p' hd hdot (hsub d hd p' hpd)

theorem collect_complete : ∀ (t : FSTree) (p : List String),
    IsCollectedFile t p → p ∈ collect_measure_maps t := by
  intro t p h
  induction h with
  | here nm files subdirs f hf hmmf =>
      simp only [collect_measure_maps, List.mem_append, List.mem_map, List.mem_filter]
      exact Or.inl ⟨f, ⟨hf, hmmf⟩, rfl⟩
  | child nm files subdirs d p hd hdot hder ih =>
      simp only [collect_measure_maps, List.mem_append, List.mem_map]
      exact Or.inr ⟨p, (mem_collectSubdirs subdirs p).mpr ⟨d, hd, hdot, ih⟩, rfl⟩

/-- C10: `collect_measure_maps` returns exactly the paths of files whose
name ends with `.mm.json` and that lie under no pruned (dot-named)
directory below the given root; every other file is excluded.  The function
is total on every tree (it never raises on an existing directory). -/
theorem collect_measure_maps_spec (t : FSTree) (p : List String) :
    p ∈ collect_measure_maps t ↔ IsCollectedFile t p :=
  ⟨collect_sound t p, collect_complete t p⟩

/-- Modelled from the spec: the `Measure` entity of `pymeasuremap/base.py`,
which is not among the provided sources, with the fields and fixed order of
section 6 of the specification. -/
structure Measure where
  count : ℕ
  qstamp : ℚ
  number : ℤ
  name : String
  time_signature : String
  nominal_length : ℚ
  actual_length : ℚ
  start_repeat : Bool
  end_repeat : Bool
  next : List ℕ
deriving DecidableEq, Repr

/-- Modelled from the spec: the volta letter suffix of a measure, read off
its `name` by section 3's convention (`name` is the written number followed
by a lowercase letter `a`, `b`, `c`, ... for volta position 1, 2, 3, ...,
with an empty suffix when there is no volta).  This is the positional
context section 4.2's engine needs for the volta letter increment; since
base.py's method takes only the measure itself, the context must be the
name suffix. -/
def voltaSuffix (m : Measure) : Option Char :=
  let base := (toString m.number).toList
  let nm := m.name.toList
  if nm.take base.length = base then
    match nm.drop base.length with
    | [c] => if 97 ≤ c.toNat ∧ c.toNat ≤ 122 then some c else none
    | _ => none
  else none

/-- Modelled from the spec: `Measure.get_default_successor` (base.py is not
among the provided sources), following section 4.2: `count' = count + 1`,
`qstamp' = qstamp + actual_length`, and `number' = number + 1` with `name'`
the string of the new number and empty suffix — unless the source measure
is mid-volta (its name carries a volta letter suffix), in which case the
number is kept and the volta suffix is incremented by one letter; time
signature and nominal length unchanged, no repeat flags,
`next' = [count']`.  Section 4.2 leaves `actual_length'` implicit; by
section 8's matching condition it is the nominal length. -/
def get_default_successor (m : Measure) : Measure :=
  match voltaSuffix m with
  | some c =>
      ⟨m.count + 1, m.qstamp + m.actual_length, m.number,
        String.mk ((toString m.number).toList ++ [Char.ofNat (c.toNat + 1)]),
        m.time_signature, m.nominal_length, m.nominal_length, false, false, [m.count + 1]⟩
  | none =>
      ⟨m.count + 1, m.qstamp + m.actual_length, m.number + 1, toString (m.number + 1),
        m.time_signature, m.nominal_length, m.nominal_length, false, false, [m.count + 1]⟩

theorem get_default_successor_of_volta_none (m : Measure) (hv : voltaSuffix m = none) :
    get_default_successor m =
      ⟨m.count + 1, m.qstamp + m.actual_length, m.number + 1, toString (m.number + 1),
        m.time_signature, m.nominal_length, m.nominal_length, false, false,
        [m.count + 1]⟩ := by
  simp [get_default_successor, hv]

theorem get_default_successor_of_volta_some (m : Measure) (c : Char)
    (hv : voltaSuffix m = some c) :
    get_default_successor m =
      ⟨m.count + 1, m.qstamp + m.actual_length, m.number,
        String.mk ((toString m.number).toList ++ [Char.ofNat (c.toNat + 1)]),
        m.time_signature, m.nominal_length, m.nominal_length, false, false,
        [m.count + 1]⟩ := by
  simp [get_default_successor, hv]

/-- Equality of two Measures in every field except possibly `next`. -/
def eqExceptNext (a b : Measure) : Prop :=
  a.count = b.count ∧ a.qstamp = b.qstamp ∧ a.number = b.number ∧ a.name = b.name ∧
    a.time_signature = b.time_signature ∧ a.nominal_length = b.nominal_length ∧
    a.actual_length = b.actual_length ∧ a.start_repeat = b.start_repeat ∧
    a.end_repeat = b.end_repeat

/-- The C6 claim as stated: in every Map, a successor measure with no
time-signature change, no repeat flags, and `actual_length` equal to its
predecessor's `nominal_length` equals the predecessor's computed default
successor in every field except possibly `next`. -/
def c6Stated : Prop :=
  ∀ (mm : List Measure) (i : ℕ) (m m' : Measure),
    mm.get? i = some m → mm.get? (i + 1) = some m' →
    m'.time_signature = m.time_signature → m'.start_repeat = false → m'.end_repeat = false →
    m'.actual_length = m.nominal_length →
    eqExceptNext m' (get_default_successor m)

/-- C6 counterexample: a two-measure Map whose second measure satisfies all
the stated conditions but has `qstamp = 99` instead of
`qstamp + actual_length = 4`, so it differs from the default successor. -/
theorem default_successor_counterexample : ¬ c6Stated := by
  intro h
  have hc := h [⟨1, 0, 1, "1", "4/4", 4, 4, false, false, [2]⟩,
      ⟨2, 99, 2, "2", "4/4", 4, 4, false, false, []⟩] 0
    ⟨1, 0, 1, "1", "4/4", 4, 4, false, false, [2]⟩
    ⟨2, 99, 2, "2", "4/4", 4, 4, false, false, []⟩
    rfl rfl rfl rfl rfl rfl
  have hv : voltaSuffix (⟨1, 0, 1, "1", "4/4", 4, 4, false, false, [2]⟩ : Measure) = none := by
    decide
  have hq := hc.2.1
  rw [get_default_successor_of_volta_none _ hv] at hq
  norm_num at hq

/-- C6 amended: the computed default successor has `count' = count + 1` and
`qstamp' = qstamp + actual_length` in all cases, and a measure equals it in
every field except possibly `next` exactly when, besides carrying the
predecessor's time signature, no repeat flags, and `actual_length` equal to
the predecessor's nominal length, its `count` and `qstamp` take the
default-successor values and its `number` and `name` follow the volta rule
of section 4.2: `number + 1` with name `str(number + 1)` when the
predecessor is not mid-volta, the same number with the volta letter
incremented by one when it is. -/
theorem default_successor_spec (m : Measure) :
    (get_default_successor m).count = m.count + 1 ∧
    (get_default_successor m).qstamp = m.qstamp + m.actual_length ∧
    ∀ m' : Measure, eqExceptNext m' (get_default_successor m) ↔
      (m'.count = m.count + 1 ∧ m'.qstamp = m.qstamp + m.actual_length ∧
        m'.number = (match voltaSuffix m with
          | some _ => m.number
          | none => m.number + 1) ∧
        m'.name = (match voltaSuffix m with
          | some c => String.mk ((toString m.number).toList ++ [Char.ofNat (c.toNat + 1)])
          | none => toString (m.number + 1)) ∧
        m'.time_signature = m.time_signature ∧ m'.nominal_length = m.nominal_length ∧
        m'.actual_length = m.nominal_length ∧ m'.start_repeat = false ∧
        m'.end_repeat = false) := by
  cases hv : voltaSuffix m with
  | none =>
      rw [get_default_successor_of_volta_none m hv]
      exact ⟨rfl, rfl, fun _ => Iff.rfl⟩
  | some c =>
      rw [get_default_successor_of_volta_some m c hv]
      exact ⟨rfl, rfl, fun _ => Iff.rfl⟩

/-- Modelled from the spec: the JSON value tree the Codec (base.py, not
among the provided sources) writes and reads. -/
inductive JValue where
  | jInt (n : ℤ)
  | jNum (q : ℚ)
  | jStr (s : String)
  | jBool (b : Bool)
  | jArr (elems : List JValue)
  | jObj (fields : List (String × JValue))

/-- Modelled from the spec: the canonical encoding of one Measure, with the
fixed key order of section 6. -/
def encodeMeasure (m : Measure) : JValue :=
  .jObj [("count", .jInt (m.count : ℤ)), ("qstamp", .jNum m.qstamp),
    ("number", .jInt m.number), ("name", .jStr m.name),
    ("time_signature", .jStr m.time_signature), ("nominal_length", .jNum m.nominal_length),
    ("actual_length", .jNum m.actual_length), ("start_repeat", .jBool m.start_repeat),
    ("end_repeat", .jBool m.end_repeat),
    ("next", .jArr (m.next.map (fun (c : ℕ) => .jInt (c : ℤ))))]

/-- Modelled from the spec: decoding of a `next` array; every element must
be a non-negative integer. -/
def decodeNexts : List JValue → Option (List ℕ)
  | [] => some []
  | .jInt i :: rest =>
      if 0 ≤ i then
        match decodeNexts rest with
        | some r => some (i.toNat :: r)
        | none => none
      else none
  | _ => none

/-- Modelled from the spec: decoding of one Measure record; a missing or
misnamed key, an ill-typed field or a negative count is a `FormatError`
(`none`). -/
def decodeMeasure : JValue → Option Measure
  | .jObj [(k1, .jInt c), (k2, .jNum q), (k3, .jInt num), (k4, .jStr nm), (k5, .jStr ts),
      (k6, .jNum nl), (k7, .jNum al), (k8, .jBool sr), (k9, .jBool er), (k10, .jArr nx)] =>
      if k1 = "count" ∧ k2 = "qstamp" ∧ k3 = "number" ∧ k4 = "name" ∧
          k5 = "time_signature" ∧ k6 = "nominal_length" ∧ k7 = "actual_length" ∧
          k8 = "start_repeat" ∧ k9 = "end_repeat" ∧ k10 = "next" ∧ 0 ≤ c then
        match decodeNexts nx with
        | some nexts => some ⟨c.toNat, q, num, nm, ts, nl, al, sr, er, nexts⟩
        | none => none
      else none
  | _ => none

/-- Modelled from the spec: decoding of a record list, failing on the first
bad record. -/
def decodeMeasures : List JValue → Option (List Measure)
  | [] => some []
  | v :: vs =>
      match decodeMeasure v with
      | some m =>
          match decodeMeasures vs with
          | some ms => some (m :: ms)
          | none => none
      | none => none

/-- Every value of every `next` list names a 1-based position of the same
map (the spec's next-closure invariant). -/
def nextClosedB (ms : List Measure) : Bool :=
  ms.all (fun d => d.next.all (fun x => decide (1 ≤ x) && decide (x ≤ ms.length)))

/-- The `count` values are `k, k + 1, ...` in container order. -/
def contiguousFromB : ℕ → List Measure → Bool
  | _, [] => true
  | k, m :: rest => decide (m.count = k) && contiguousFromB (k + 1) rest

/-- A valid Map per section 3: contiguous 1-based counts and next-closure. -/
def validMapB (ms : List Measure) : Bool :=
  contiguousFromB 1 ms && nextClosedB ms

/-- Modelled from the spec: the canonical encoding of a Measure Map. -/
def encodeMap (ms : List Measure) : JValue :=
  .jArr (ms.map encodeMeasure)

/-- Modelled from the spec: decoding of a Measure Map; decode fails with a
`FormatError` (`none`) when a required field is absent, a numeric field
does not parse, or some `next` references an out-of-range `count`. -/
def decodeMap (v : JValue) : Option (List Measure) :=
  match v with
  | .jArr l =>
      match decodeMeasures l with
      | some ms => if nextClosedB ms then some ms else none
      | none => none
  | _ => none

/-- Modelled from the spec: deterministic textual rendering of a rational
value. -/
def renderQ (q : ℚ) : String :=
  toString q.num ++ ("/") ++ toString q.den

/-- Modelled from the spec: deterministic rendering of a JSON boolean. -/
def renderBool (b : Bool) : String :=
  if b then "true" else "false"

/-- Modelled from the spec: deterministic rendering of a `next` array. -/
def renderNexts (ns : List ℕ) : String :=
  "[" ++ String.intercalate (", ") (ns.map (fun c => toString c)) ++ "]"

/-- Modelled from the spec: deterministic byte rendering of one Measure
record with the fixed key order and formatting. -/
def renderMeasure (m : Measure) : String :=
  "\x7b\x22count\x22: " ++ toString m.count ++ ", \x22qstamp\x22: " ++ renderQ m.qstamp ++
    ", \x22number\x22: " ++ toString m.number ++ ", \x22name\x22: \x22" ++ m.name ++
    "\x22, \x22time_signature\x22: \x22" ++ m.time_signature ++
    "\x22, \x22nominal_length\x22: " ++ renderQ m.nominal_length ++
    ", \x22actual_length\x22: " ++ renderQ m.actual_length ++
    ", \x22start_repeat\x22: " ++ renderBool m.start_repeat ++
    ", \x22end_repeat\x22: " ++ renderBool m.end_repeat ++
    ", \x22next\x22: " ++ renderNexts m.next ++ "\x7d"

/-- Modelled from the spec: deterministic byte rendering of a whole Map;
being a function of the Map, re-encoding equal Maps is byte-identical. -/
def renderMap (ms : List Measure) : String :=
  "[" ++ String.intercalate (", ") (ms.map renderMeasure) ++ "]"

theorem decodeNexts_encode (xs : List ℕ) :
    decodeNexts (xs.map (fun (c : ℕ) => JValue.jInt (c : ℤ))) = some xs := by
  induction xs with
  | nil => rfl
  | cons x xs ih =>
      simp only [List.map_cons, decodeNexts]
      rw [if_pos (Int.natCast_nonneg x), ih]
      simp

theorem decodeMeasure_encode (m : Measure) :
    decodeMeasure (encodeMeasure m) = some m := by
  simp [encodeMeasure, decodeMeasure, decodeNexts_encode]

theorem decodeMeasures_encode (ms : List Measure) :
    decodeMeasures (ms.map encodeMeasure) = some ms := by
  induction ms with
  | nil => rfl
  | cons m ms ih => simp [decodeMeasures, decodeMeasure_encode, ih]

/-- C1: decoding the canonical encoding of a valid Map yields the same Map,
and re-encoding the decoded Map is byte-identical to the original
encoding's rendering; the encoder and renderer are functions of the Map, so
encoding is deterministic. -/
theorem codec_round_trip (ms : List Measure) (h : validMapB ms = true) :
    decodeMap (encodeMap ms) = some ms ∧
      (decodeMap (encodeMap ms)).map renderMap = some (renderMap ms) := by
  have hnc : nextClosedB ms = true := by
    unfold validMapB at h
    rw [Bool.and_eq_true] at h
    exact h.2
  have h1 : decodeMap (encodeMap ms) = some ms := by
    simp [decodeMap, encodeMap, decodeMeasures_encode, hnc]
  exact ⟨h1, by rw [h1]; rfl⟩

/-- A concrete valid two-measure Map. -/
def exMapC1 : List Measure :=
  [⟨1, 0, 1, "1", "4/4", 4, 4, false, false, [2]⟩,
    ⟨2, 4, 2, "2", "4/4", 4, 4, false, false, []⟩]

/-- Concrete instantiation of `codec_round_trip`. -/
theorem codec_round_trip_witness :
    decodeMap (encodeMap exMapC1) = some exMapC1 ∧
      (decodeMap (encodeMap exMapC1)).map renderMap = some (renderMap exMapC1) :=
  codec_round_trip exMapC1 (by decide)
